import Mathlib

/-!
Verification of the credit-card installment engine of `cartao.py`
(repository Controle_Financeiro).

The embedding models:
* calendar dates with the month arithmetic of `dateutil.relativedelta`
  (adding months rolls the year and clamps the day to the target month's
  length) and Python's lexicographic date ordering;
* `expand_installments` (src/cartao.py, lines 56-100);
* `compute_card_summary` (lines 103-130), with "today" threaded as an
  explicit parameter in place of the inline `date.today()` read;
* `build_purchase_overview` (lines 133-188), likewise parameterised by
  "today"; pandas `groupby` iterates groups in ascending key order and
  `sort_values` is a stable sort, which the embedding reproduces.

Monetary amounts are rationals (the Python floats), so the arithmetic
claims are settled exactly.
-/

/-- A calendar date (year, month, day), as Python's `datetime.date`.
Python guarantees `1 ≤ month ≤ 12` and `1 ≤ day ≤ daysInMonth`;
the predicate `Date.Valid` captures that where a theorem needs it. -/
structure Date where
  year : Nat
  month : Nat
  day : Nat
deriving DecidableEq, Inhabited, Repr

/-- Python's `<` on dates: lexicographic on (year, month, day). -/
def Date.lt (a b : Date) : Prop :=
  a.year < b.year ∨
    (a.year = b.year ∧
      (a.month < b.month ∨ (a.month = b.month ∧ a.day < b.day)))

instance (a b : Date) : Decidable (Date.lt a b) := by
  unfold Date.lt; exact inferInstance

def isLeap (y : Nat) : Bool :=
  (y % 4 == 0 && y % 100 != 0) || y % 400 == 0

def daysInMonth (y m : Nat) : Nat :=
  if m = 2 then (if isLeap y then 29 else 28)
  else if m = 4 ∨ m = 6 ∨ m = 9 ∨ m = 11 then 30
  else 31

/-- Python's `d + relativedelta(months=k)`: advance `k` whole months, rolling the
year, and clamp the day to the length of the target month. -/
def Date.addMonths (d : Date) (k : Nat) : Date :=
  let idx := d.year * 12 + (d.month - 1) + k
  let y := idx / 12
  let m := idx % 12 + 1
  { year := y, month := m, day := min d.day (daysInMonth y m) }

/-- Python's `d.replace(day=day)` (the caller guarantees the day is valid for the
month; in `cartao.py` it is always a `due_day ≤ 28`). -/
def Date.replaceDay (d : Date) (day : Nat) : Date :=
  { year := d.year, month := d.month, day := day }

/-- A date as produced by Python's date type: month in 1..12, day in
1..days-of-that-month. -/
def Date.Valid (d : Date) : Prop :=
  1 ≤ d.month ∧ d.month ≤ 12 ∧ 1 ≤ d.day ∧ d.day ≤ daysInMonth d.year d.month

instance (d : Date) : Decidable d.Valid := by
  unfold Date.Valid; exact inferInstance

/-- Linearisation of (year, month): used to say "the following calendar
month" with year rollover. -/
def monthIndex (d : Date) : Nat :=
  d.year * 12 + (d.month - 1)

/-- One row of the `transactions` dataframe handed to
`expand_installments` (`installments` already cast with `int(...)`,
`amount` with `float(...)`). -/
structure Transaction where
  id : Nat
  category : String
  date : Date
  amount : ℚ
  installments : Int
  card_name : String
  description : String
deriving DecidableEq

/-- One expanded installment row, exactly the dict appended in
`expand_installments`. -/
structure Installment where
  transaction_id : Nat
  category : String
  purchase_date : Date
  card_name : String
  description : String
  installment_no : Nat
  total_installments : Nat
  installment_value : ℚ
  due_date : Date
deriving DecidableEq, Inhabited

/-- The first-due-date rule (src/cartao.py lines 73-76): purchase on or
before the due day falls due this month, later purchases next month. -/
def firstDueDate (due_day : Nat) (purchase_date : Date) : Date :=
  if purchase_date.day ≤ due_day then purchase_date.replaceDay due_day
  else (purchase_date.addMonths 1).replaceDay due_day

/-- The per-transaction body of the loop in `expand_installments`
(src/cartao.py lines 65-93): clamp the installment count to at least 1,
split the amount evenly, locate the first due date by the due-day rule
and emit one row per installment, one month apart. -/
def expandOne (due_day : Nat) (t : Transaction) : List Installment :=
  let n_parc := (max t.installments 1).toNat
  let parcela_value := t.amount / (n_parc : ℚ)
  let first_due := firstDueDate due_day t.date
  (List.range n_parc).map fun k =>
    { transaction_id := t.id
      category := t.category
      purchase_date := t.date
      card_name := t.card_name
      description := t.description
      installment_no := k + 1
      total_installments := n_parc
      installment_value := parcela_value
      due_date := first_due.addMonths k }

/-- The function `expand_installments(df, due_day)` (src/cartao.py lines 56-100). -/
def expand_installments (df : List Transaction) (due_day : Nat) :
    List Installment :=
  df.flatMap (expandOne due_day)

/-- The function `compute_card_summary(expanded)` (src/cartao.py lines 103-130), with
`today` injected instead of the inline `date.today()`.  Returns
`(valor_fatura_mes, divida_ano_a_pagar, valor_pago_ano)`. -/
def compute_card_summary (expanded : List Installment) (today : Date) :
    ℚ × ℚ × ℚ :=
  if expanded.isEmpty then (0, 0, 0)
  else
    let current_year := today.year
    let current_month := today.month
    let mask_mes_atual := fun i : Installment =>
      i.due_date.year == current_year && i.due_date.month == current_month
    let valor_fatura_mes :=
      ((expanded.filter mask_mes_atual).map (·.installment_value)).sum
    let mask_ano_atual := fun i : Installment =>
      i.due_date.year == current_year
    let mask_pago := fun i : Installment =>
      mask_ano_atual i && decide (Date.lt i.due_date today)
    let valor_pago_ano :=
      ((expanded.filter mask_pago).map (·.installment_value)).sum
    let mask_a_pagar := fun i : Installment =>
      mask_ano_atual i && decide (¬ Date.lt i.due_date today)
    let divida_ano_a_pagar :=
      ((expanded.filter mask_a_pagar).map (·.installment_value)).sum
    (valor_fatura_mes, divida_ano_a_pagar, valor_pago_ano)

/-- One consolidated row of the purchase overview. -/
structure Overview where
  transaction_id : Nat
  card_name : String
  category : String
  purchase_date : Date
  total_installments : Nat
  installments_paid : Nat
  installments_remaining : Int
  total_value : ℚ
  remaining_value : ℚ
  next_due : Option Date
  description : String
  status : String
deriving DecidableEq

/-- One step of Python's `min` over dates (keeps the earlier element on
ties, which for dates means an equal value). -/
def minStep (acc : Option Date) (d : Date) : Option Date :=
  match acc with
  | none => some d
  | some m => if Date.lt d m then some d else some m

/-- One step of Python's `max` over dates. -/
def maxStep (acc : Option Date) (d : Date) : Option Date :=
  match acc with
  | none => some d
  | some m => if Date.lt m d then some d else some m

/-- Python's `min(dues)` over a list of dates, `none` on an empty list
(mirrors `min(future_dues) if future_dues else None`). -/
def listMinD (l : List Date) : Option Date :=
  l.foldl minStep none

/-- Python's `max(dues)` over a list of dates, `none` on an empty list.
In `build_purchase_overview` the group is never empty. -/
def listMaxD (l : List Date) : Option Date :=
  l.foldl maxStep none

/-- The body of the `groupby` loop in `build_purchase_overview`
(src/cartao.py lines 148-186): sort the group by `installment_no`, read
the headline fields off the first row, count paid installments, and
derive status / next due date / values.  The group is nonempty whenever
this is called, so the `getD` default on `last_due` is never used. -/
def overviewOfGroup (today : Date) (tid : Nat) (g : List Installment) :
    Overview :=
  let g_sorted :=
    g.insertionSort fun a b => a.installment_no ≤ b.installment_no
  let first_row := g_sorted.headI
  let total_installments := first_row.total_installments
  let parcela_value := first_row.installment_value
  let dues := g_sorted.map (·.due_date)
  let paid := (dues.filter fun d => decide (Date.lt d today)).length
  let remaining : Int := (total_installments : Int) - (paid : Int)
  let last_due := (listMaxD dues).getD today
  let status :=
    if remaining ≤ 0 ∧ Date.lt last_due today then "concluida" else "ativa"
  let next_due : Option Date :=
    if 0 < remaining then
      listMinD (dues.filter fun d => decide (¬ Date.lt d today))
    else none
  { transaction_id := tid
    card_name := first_row.card_name
    category := first_row.category
    purchase_date := first_row.purchase_date
    total_installments := total_installments
    installments_paid := paid
    installments_remaining := remaining
    total_value := (total_installments : ℚ) * parcela_value
    remaining_value := max 0 ((remaining : ℚ) * parcela_value)
    next_due := next_due
    description := first_row.description
    status := status }

/-- The distinct `transaction_id` keys, in ascending order: pandas
`groupby` iterates groups sorted by key. -/
def uniqueKeys (expanded : List Installment) : List Nat :=
  ((expanded.map (·.transaction_id)).dedup).insertionSort (· ≤ ·)

/-- The function `build_purchase_overview(expanded)` (src/cartao.py lines 133-188),
with `today` injected. -/
def build_purchase_overview (expanded : List Installment) (today : Date) :
    List Overview :=
  if expanded.isEmpty then []
  else
    (uniqueKeys expanded).map fun tid =>
      overviewOfGroup today tid
        (expanded.filter fun i => i.transaction_id == tid)

/-! ### Order lemmas for `Date.lt` -/

theorem Date.lt_irrefl (a : Date) : ¬ Date.lt a a := by
  unfold Date.lt; omega

theorem Date.lt_trans {a b c : Date} (h1 : Date.lt a b) (h2 : Date.lt b c) :
    Date.lt a c := by
  unfold Date.lt at *; omega

theorem Date.lt_asymm {a b : Date} (h : Date.lt a b) : ¬ Date.lt b a := by
  unfold Date.lt at *; omega

theorem Date.not_lt_trans {a b c : Date}
    (h1 : ¬ Date.lt a b) (h2 : ¬ Date.lt b c) : ¬ Date.lt a c := by
  unfold Date.lt at *; omega

theorem Date.ext_fields {a b : Date} (hy : a.year = b.year)
    (hm : a.month = b.month) (hd : a.day = b.day) : a = b := by
  cases a; cases b; simp_all

theorem Date.eq_of_not_lt_not_lt {a b : Date}
    (h1 : ¬ Date.lt a b) (h2 : ¬ Date.lt b a) : a = b := by
  unfold Date.lt at h1 h2
  exact Date.ext_fields (by omega) (by omega) (by omega)

theorem Date.lt_of_not_lt_of_lt {a b c : Date}
    (h1 : ¬ Date.lt a b) (h2 : Date.lt a c) : Date.lt b c := by
  unfold Date.lt at *; omega

/-! ### Month arithmetic lemmas -/

theorem daysInMonth_ge (y m : Nat) : 28 ≤ daysInMonth y m := by
  unfold daysInMonth
  split
  · split <;> omega
  · split <;> omega

theorem monthIndex_addMonths (d : Date) (k : Nat) :
    monthIndex (d.addMonths k) = monthIndex d + k := by
  unfold monthIndex Date.addMonths
  simp only
  omega

theorem month_addMonths_bounds (d : Date) (k : Nat) :
    1 ≤ (d.addMonths k).month ∧ (d.addMonths k).month ≤ 12 := by
  unfold Date.addMonths
  simp only
  omega

theorem day_addMonths (d : Date) (k : Nat) (h : d.day ≤ 28) :
    (d.addMonths k).day = d.day := by
  unfold Date.addMonths
  simp only
  have := daysInMonth_ge ((d.year * 12 + (d.month - 1) + k) / 12)
    ((d.year * 12 + (d.month - 1) + k) % 12 + 1)
  omega

theorem addMonths_addMonths (d : Date) (hday : d.day ≤ 28) (j k : Nat) :
    (d.addMonths j).addMonths k = d.addMonths (j + k) := by
  have h1 := monthIndex_addMonths d j
  have h2 := monthIndex_addMonths (d.addMonths j) k
  have h3 := monthIndex_addMonths d (j + k)
  have hd1 := day_addMonths d j hday
  have hd2 := day_addMonths (d.addMonths j) k (by omega)
  have hd3 := day_addMonths d (j + k) hday
  have hm2 := month_addMonths_bounds (d.addMonths j) k
  have hm3 := month_addMonths_bounds d (j + k)
  unfold monthIndex at h1 h2 h3
  exact Date.ext_fields (by omega) (by omega) (by omega)

theorem lt_addMonths_of_lt {a : Date} (j k : Nat) (h : j < k) :
    Date.lt (a.addMonths j) (a.addMonths k) := by
  have h1 := monthIndex_addMonths a j
  have h2 := monthIndex_addMonths a k
  have b1 := month_addMonths_bounds a j
  have b2 := month_addMonths_bounds a k
  unfold monthIndex at h1 h2
  unfold Date.lt
  omega

/-! ### Minimum / maximum folds -/

theorem foldl_minStep_spec (t : List Date) (m : Date) :
    ∃ r, t.foldl minStep (some m) = some r ∧ (r = m ∨ r ∈ t) ∧
      ¬ Date.lt m r ∧ ∀ d ∈ t, ¬ Date.lt d r := by
  induction t generalizing m with
  | nil => exact ⟨m, rfl, Or.inl rfl, Date.lt_irrefl m, by simp⟩
  | cons a t ih =>
    by_cases hlt : Date.lt a m
    · obtain ⟨r, hfold, hmem, hle, hall⟩ := ih a
      refine ⟨r, ?_, ?_, ?_, ?_⟩
      · simpa [List.foldl_cons, minStep, hlt] using hfold
      · rcases hmem with h | h
        · exact Or.inr (by simp [h])
        · exact Or.inr (by simp [h])
      · exact Date.not_lt_trans (Date.lt_asymm hlt) hle
      · intro d hd
        rcases List.mem_cons.mp hd with rfl | hd
        · exact hle
        · exact hall d hd
    · obtain ⟨r, hfold, hmem, hle, hall⟩ := ih m
      refine ⟨r, ?_, ?_, ?_, ?_⟩
      · simpa [List.foldl_cons, minStep, hlt] using hfold
      · rcases hmem with h | h
        · exact Or.inl h
        · exact Or.inr (List.mem_cons_of_mem _ h)
      · exact hle
      · intro d hd
        rcases List.mem_cons.mp hd with rfl | hd
        · exact Date.not_lt_trans hlt hle
        · exact hall d hd

theorem foldl_maxStep_spec (t : List Date) (m : Date) :
    ∃ r, t.foldl maxStep (some m) = some r ∧ (r = m ∨ r ∈ t) ∧
      ¬ Date.lt r m ∧ ∀ d ∈ t, ¬ Date.lt r d := by
  induction t generalizing m with
  | nil => exact ⟨m, rfl, Or.inl rfl, Date.lt_irrefl m, by simp⟩
  | cons a t ih =>
    by_cases hlt : Date.lt m a
    · obtain ⟨r, hfold, hmem, hle, hall⟩ := ih a
      refine ⟨r, ?_, ?_, ?_, ?_⟩
      · simpa [List.foldl_cons, maxStep, hlt] using hfold
      · rcases hmem with h | h
        · exact Or.inr (by simp [h])
        · exact Or.inr (by simp [h])
      · exact Date.not_lt_trans hle (Date.lt_asymm hlt)
      · intro d hd
        rcases List.mem_cons.mp hd with rfl | hd
        · exact hle
        · exact hall d hd
    · obtain ⟨r, hfold, hmem, hle, hall⟩ := ih m
      refine ⟨r, ?_, ?_, ?_, ?_⟩
      · simpa [List.foldl_cons, maxStep, hlt] using hfold
      · rcases hmem with h | h
        · exact Or.inl h
        · exact Or.inr (List.mem_cons_of_mem _ h)
      · exact hle
      · intro d hd
        rcases List.mem_cons.mp hd with rfl | hd
        · exact Date.not_lt_trans hle hlt
        · exact hall d hd

theorem listMinD_spec (l : List Date) (h : l ≠ []) :
    ∃ r, listMinD l = some r ∧ r ∈ l ∧ ∀ d ∈ l, ¬ Date.lt d r := by
  match l with
  | a :: t =>
    obtain ⟨r, hfold, hmem, hle, hall⟩ := foldl_minStep_spec t a
    refine ⟨r, ?_, ?_, ?_⟩
    · simpa [listMinD, List.foldl_cons, minStep] using hfold
    · rcases hmem with h | h
      · exact h ▸ List.mem_cons_self a t
      · exact List.mem_cons_of_mem _ h
    · intro d hd
      rcases List.mem_cons.mp hd with rfl | hd
      · exact hle
      · exact hall d hd

theorem listMaxD_spec (l : List Date) (h : l ≠ []) :
    ∃ r, listMaxD l = some r ∧ r ∈ l ∧ ∀ d ∈ l, ¬ Date.lt r d := by
  match l with
  | a :: t =>
    obtain ⟨r, hfold, hmem, hle, hall⟩ := foldl_maxStep_spec t a
    refine ⟨r, ?_, ?_, ?_⟩
    · simpa [listMaxD, List.foldl_cons, maxStep] using hfold
    · rcases hmem with h | h
      · exact h ▸ List.mem_cons_self a t
      · exact List.mem_cons_of_mem _ h
    · intro d hd
      rcases List.mem_cons.mp hd with rfl | hd
      · exact hle
      · exact hall d hd

theorem listMinD_nil : listMinD [] = none := rfl

theorem listMaxD_nil : listMaxD [] = none := rfl

theorem listMinD_perm {l1 l2 : List Date} (h : l1.Perm l2) :
    listMinD l1 = listMinD l2 := by
  rcases eq_or_ne l1 [] with rfl | h1
  · rw [h.symm.eq_nil]
  · have h2 : l2 ≠ [] := by
      intro he
      refine h1 ?_
      rw [he] at h
      exact h.eq_nil
    obtain ⟨r1, e1, m1, a1⟩ := listMinD_spec l1 h1
    obtain ⟨r2, e2, m2, a2⟩ := listMinD_spec l2 h2
    have hr : r1 = r2 :=
      Date.eq_of_not_lt_not_lt (a2 r1 (h.mem_iff.mp m1)) (a1 r2 (h.mem_iff.mpr m2))
    rw [e1, e2, hr]

theorem listMaxD_perm {l1 l2 : List Date} (h : l1.Perm l2) :
    listMaxD l1 = listMaxD l2 := by
  rcases eq_or_ne l1 [] with rfl | h1
  · rw [h.symm.eq_nil]
  · have h2 : l2 ≠ [] := by
      intro he
      refine h1 ?_
      rw [he] at h
      exact h.eq_nil
    obtain ⟨r1, e1, m1, a1⟩ := listMaxD_spec l1 h1
    obtain ⟨r2, e2, m2, a2⟩ := listMaxD_spec l2 h2
    have hr : r1 = r2 :=
      Date.eq_of_not_lt_not_lt (a1 r2 (h.mem_iff.mpr m2)) (a2 r1 (h.mem_iff.mp m1))
    rw [e1, e2, hr]

/-! ### Generic counting lemma -/

theorem length_filter_add_length_filter_not {α : Type} (l : List α) (p : α → Bool) :
    (l.filter p).length + (l.filter fun a => !(p a)).length = l.length := by
  induction l with
  | nil => simp
  | cons a t ih =>
    by_cases h : p a <;> simp [List.filter_cons, h] <;> omega

/-! ### Shape of `expandOne` -/

theorem addMonths_zero (d : Date) (hm1 : 1 ≤ d.month) (hm12 : d.month ≤ 12)
    (hd : d.day ≤ 28) : d.addMonths 0 = d := by
  have h1 := monthIndex_addMonths d 0
  have hb := month_addMonths_bounds d 0
  have hdd := day_addMonths d 0 hd
  unfold monthIndex at h1
  exact Date.ext_fields (by omega) (by omega) (by omega)

theorem expandOne_length (due_day : Nat) (t : Transaction) :
    (expandOne due_day t).length = (max t.installments 1).toNat := by
  simp [expandOne]

theorem expandOne_ne_nil (due_day : Nat) (t : Transaction) :
    expandOne due_day t ≠ [] := by
  have h : (expandOne due_day t).length ≠ 0 := by
    rw [expandOne_length]
    have h1 : (1 : Int) ≤ max t.installments 1 := le_max_right _ _
    omega
  exact fun he => h (by simp [he])

theorem mem_expandOne (due_day : Nat) (t : Transaction) (i : Installment)
    (h : i ∈ expandOne due_day t) :
    ∃ k < (max t.installments 1).toNat,
      i = { transaction_id := t.id
            category := t.category
            purchase_date := t.date
            card_name := t.card_name
            description := t.description
            installment_no := k + 1
            total_installments := (max t.installments 1).toNat
            installment_value :=
              t.amount / (((max t.installments 1).toNat : Nat) : ℚ)
            due_date := (firstDueDate due_day t.date).addMonths k } := by
  simp only [expandOne, List.mem_map, List.mem_range] at h
  obtain ⟨k, hk, rfl⟩ := h
  exact ⟨k, hk, rfl⟩

theorem firstDueDate_day (due_day : Nat) (d : Date) :
    (firstDueDate due_day d).day = due_day := by
  unfold firstDueDate Date.replaceDay
  split <;> rfl

theorem expand_installments_singleton (t : Transaction) (due_day : Nat) :
    expand_installments [t] due_day = expandOne due_day t := by
  simp [expand_installments]

/-- C1: the first installment's due month.  If the purchase day-of-month
is at most `due_day`, the first installment (the one with
`installment_no = 1`) is due in the purchase's own calendar month on day
`due_day`; otherwise it is due in the following calendar month (year
rollover included, phrased with `monthIndex`) on day `due_day`. -/
theorem c1_first_installment_due_month (t : Transaction) (due_day : Nat)
    (h1 : 1 ≤ due_day) (h28 : due_day ≤ 28) (hv : t.date.Valid) :
    ∀ i ∈ expand_installments [t] due_day, i.installment_no = 1 →
      (t.date.day ≤ due_day →
        i.due_date.year = t.date.year ∧ i.due_date.month = t.date.month ∧
          i.due_date.day = due_day) ∧
      (due_day < t.date.day →
        monthIndex i.due_date = monthIndex t.date + 1 ∧
          i.due_date.day = due_day) := by
  intro i hi hno
  rw [expand_installments_singleton] at hi
  obtain ⟨k, hk, rfl⟩ := mem_expandOne due_day t i hi
  simp only at hno
  have hk0 : k = 0 := by omega
  subst hk0
  obtain ⟨hvm1, hvm2, _, _⟩ := hv
  constructor
  · intro hle
    have hfd : firstDueDate due_day t.date = t.date.replaceDay due_day := by
      unfold firstDueDate
      rw [if_pos hle]
    have hz : (t.date.replaceDay due_day).addMonths 0 = t.date.replaceDay due_day := by
      refine addMonths_zero _ ?_ ?_ ?_ <;> simp [Date.replaceDay]
      · exact hvm1
      · exact hvm2
      · exact h28
    rw [hfd, hz]
    exact ⟨rfl, rfl, rfl⟩
  · intro hgt
    have hfd : firstDueDate due_day t.date =
        (t.date.addMonths 1).replaceDay due_day := by
      unfold firstDueDate
      rw [if_neg (by omega)]
    have hb := month_addMonths_bounds t.date 1
    have hz : ((t.date.addMonths 1).replaceDay due_day).addMonths 0 =
        (t.date.addMonths 1).replaceDay due_day := by
      refine addMonths_zero _ ?_ ?_ ?_ <;> simp [Date.replaceDay]
      · exact hb.1
      · exact hb.2
      · exact h28
    have hmi := monthIndex_addMonths t.date 1
    simp only [hfd, hz]
    constructor
    · have : monthIndex ((t.date.addMonths 1).replaceDay due_day) =
          monthIndex (t.date.addMonths 1) := by
        unfold monthIndex Date.replaceDay
        rfl
      omega
    · rfl

/-- Example transaction: purchase on 2024-05-03, single installment of
R$ 100. -/
def sampleT1 : Transaction :=
  { id := 1, category := "mercado", date := ⟨2024, 5, 3⟩, amount := 100,
    installments := 1, card_name := "Nubank", description := "compra" }

/-- C1 witness: instantiated at `sampleT1` with `due_day = 5`. -/
theorem c1_first_installment_due_month_witness :
    (1 ≤ 5 ∧ 5 ≤ 28 ∧ sampleT1.date.Valid) ∧
      (∀ i ∈ expand_installments [sampleT1] 5, i.installment_no = 1 →
        (sampleT1.date.day ≤ 5 →
          i.due_date.year = sampleT1.date.year ∧
            i.due_date.month = sampleT1.date.month ∧ i.due_date.day = 5) ∧
        (5 < sampleT1.date.day →
          monthIndex i.due_date = monthIndex sampleT1.date + 1 ∧
            i.due_date.day = 5)) :=
  ⟨⟨by decide, by decide, by decide⟩,
    c1_first_installment_due_month sampleT1 5 (by decide) (by decide)
      (by decide)⟩

/-- C9: a transaction with `installment_count < 1` is not rejected: the
count is clamped to 1 before the division, and exactly one installment
is produced carrying the transaction's full amount. -/
theorem c9_clamped_single_installment (t : Transaction) (due_day : Nat)
    (h : t.installments < 1) :
    (expand_installments [t] due_day).map
        (fun i => (i.installment_no, i.total_installments,
          i.installment_value)) =
      [(1, 1, t.amount)] := by
  have hmax : max t.installments 1 = 1 := by omega
  rw [expand_installments_singleton]
  have hr : List.range 1 = [0] := rfl
  simp [expandOne, hmax, hr]

/-- Example transaction with a malformed installment count of 0. -/
def sampleT0 : Transaction :=
  { id := 2, category := "outros", date := ⟨2024, 3, 20⟩, amount := 57,
    installments := 0, card_name := "Visa", description := "ajuste" }

/-- C9 witness: instantiated at `sampleT0` (installment count 0). -/
theorem c9_clamped_single_installment_witness :
    sampleT0.installments < 1 ∧
      (expand_installments [sampleT0] 5).map
          (fun i => (i.installment_no, i.total_installments,
            i.installment_value)) =
        [(1, 1, sampleT0.amount)] :=
  ⟨by decide, c9_clamped_single_installment sampleT0 5 (by decide)⟩

theorem nparc_eq (t : Transaction) (N : Nat) (hN : 1 ≤ N)
    (hins : t.installments = (N : Int)) :
    (max t.installments 1).toNat = N := by
  have h1 : (1 : Int) ≤ (N : Int) := by exact_mod_cast hN
  rw [hins, max_eq_left h1]
  simp

/-- C2: expanding a transaction with `installment_count = N ≥ 1` and
amount `A` yields exactly `N` installments, indexed `1..N` in emission
order, each worth exactly `A / N` (so they sum to `A` over ℚ), with the
day-of-month pinned at `due_day` and each consecutive due date exactly
one calendar month after the previous one, hence strictly increasing. -/
theorem c2_expand_installment_shape (t : Transaction) (due_day N : Nat)
    (hN : 1 ≤ N) (hins : t.installments = (N : Int))
    (hd1 : 1 ≤ due_day) (hd28 : due_day ≤ 28) :
    (expand_installments [t] due_day).length = N ∧
    (expand_installments [t] due_day).map (·.installment_no) =
      List.range' 1 N ∧
    (∀ i ∈ expand_installments [t] due_day,
      i.installment_value = t.amount / (N : ℚ)) ∧
    ((expand_installments [t] due_day).map (·.installment_value)).sum =
      t.amount ∧
    (∀ i ∈ expand_installments [t] due_day, i.due_date.day = due_day) ∧
    (expand_installments [t] due_day).Chain'
      (fun a b => b.due_date = a.due_date.addMonths 1 ∧
        Date.lt a.due_date b.due_date) := by
  rw [expand_installments_singleton]
  have hnp := nparc_eq t N hN hins
  have hNQ : ((N : Nat) : ℚ) ≠ 0 := Nat.cast_ne_zero.mpr (by omega)
  have hfday : (firstDueDate due_day t.date).day ≤ 28 := by
    rw [firstDueDate_day]; exact hd28
  refine ⟨?_, ?_, ?_, ?_, ?_, ?_⟩
  · rw [expandOne_length, hnp]
  · show ((List.range ((max t.installments 1).toNat)).map _).map _ = _
    rw [hnp, List.map_map, List.range'_eq_map_range]
    apply List.map_congr_left
    intro a _
    simp [Nat.add_comm]
  · intro i hi
    obtain ⟨k, hk, rfl⟩ := mem_expandOne due_day t i hi
    simp only [hnp]
  · have hmv : (expandOne due_day t).map (·.installment_value) =
        List.replicate N (t.amount / ((N : Nat) : ℚ)) := by
      simp only [expandOne, List.map_map, hnp]
      show (List.range N).map (fun _ => t.amount / ((N : Nat) : ℚ)) = _
      rw [List.map_const', List.length_range]
    rw [hmv, List.sum_replicate, nsmul_eq_mul]
    field_simp
  · intro i hi
    obtain ⟨k, hk, rfl⟩ := mem_expandOne due_day t i hi
    show ((firstDueDate due_day t.date).addMonths k).day = due_day
    rw [day_addMonths _ _ hfday, firstDueDate_day]
  · show List.Chain' _ ((List.range ((max t.installments 1).toNat)).map _)
    rw [hnp, List.chain'_map]
    obtain ⟨M, rfl⟩ : ∃ M, N = M + 1 := ⟨N - 1, by omega⟩
    rw [List.chain'_range_succ]
    intro m hm
    constructor
    · show (firstDueDate due_day t.date).addMonths (m + 1) =
        ((firstDueDate due_day t.date).addMonths m).addMonths 1
      rw [addMonths_addMonths _ hfday]
    · exact lt_addMonths_of_lt m (m + 1) (by omega)

/-- Example transaction: R$ 300 in 3 installments, bought 2024-05-10. -/
def sampleT3 : Transaction :=
  { id := 3, category := "viagem", date := ⟨2024, 5, 10⟩, amount := 300,
    installments := 3, card_name := "Visa", description := "passagem" }

/-- C2 witness: instantiated at `sampleT3`, `due_day = 5`, `N = 3`. -/
theorem c2_expand_installment_shape_witness :
    (1 ≤ 3 ∧ sampleT3.installments = ((3 : Nat) : Int) ∧ 1 ≤ 5 ∧ 5 ≤ 28) ∧
      ((expand_installments [sampleT3] 5).length = 3 ∧
       (expand_installments [sampleT3] 5).map (·.installment_no) =
         List.range' 1 3 ∧
       (∀ i ∈ expand_installments [sampleT3] 5,
         i.installment_value = sampleT3.amount / ((3 : Nat) : ℚ)) ∧
       ((expand_installments [sampleT3] 5).map (·.installment_value)).sum =
         sampleT3.amount ∧
       (∀ i ∈ expand_installments [sampleT3] 5, i.due_date.day = 5) ∧
       (expand_installments [sampleT3] 5).Chain'
         (fun a b => b.due_date = a.due_date.addMonths 1 ∧
           Date.lt a.due_date b.due_date)) :=
  ⟨⟨by decide, by decide, by decide, by decide⟩,
    c2_expand_installment_shape sampleT3 5 3 (by decide) (by decide)
      (by decide) (by decide)⟩

/-! ### Window aggregator -/

theorem mask_mes_eq (today : Date) (i : Installment) :
    (i.due_date.year == today.year && i.due_date.month == today.month) =
      decide (i.due_date.year = today.year ∧
        i.due_date.month = today.month) := by
  by_cases h1 : i.due_date.year = today.year <;>
    by_cases h2 : i.due_date.month = today.month <;> simp [h1, h2]

theorem mask_pago_eq (today : Date) (i : Installment) :
    (i.due_date.year == today.year && decide (Date.lt i.due_date today)) =
      decide (i.due_date.year = today.year ∧ Date.lt i.due_date today) := by
  by_cases h1 : i.due_date.year = today.year <;>
    by_cases h2 : Date.lt i.due_date today <;> simp [h1, h2]

theorem mask_a_pagar_eq (today : Date) (i : Installment) :
    (i.due_date.year == today.year &&
        decide (¬ Date.lt i.due_date today)) =
      decide (i.due_date.year = today.year ∧
        ¬ Date.lt i.due_date today) := by
  by_cases h1 : i.due_date.year = today.year <;>
    by_cases h2 : Date.lt i.due_date today <;> simp [h1, h2]

theorem mask_ano_eq (today : Date) (i : Installment) :
    (i.due_date.year == today.year) =
      decide (i.due_date.year = today.year) := by
  by_cases h1 : i.due_date.year = today.year <;> simp [h1]

/-- C6: the three headline sums of `compute_card_summary` are exactly
the sums of `installment_value` over (a) installments due in today's
calendar month and year, (b) installments of today's year with
`due_date ≥ today`, and (c) installments of today's year with
`due_date < today`; on an empty sequence all three are 0 and the
function is total (no error). -/
theorem c6_summary_windows (expanded : List Installment) (today : Date) :
    compute_card_summary expanded today =
      (((expanded.filter fun i =>
          decide (i.due_date.year = today.year ∧
            i.due_date.month = today.month)).map (·.installment_value)).sum,
       ((expanded.filter fun i =>
          decide (i.due_date.year = today.year ∧
            ¬ Date.lt i.due_date today)).map (·.installment_value)).sum,
       ((expanded.filter fun i =>
          decide (i.due_date.year = today.year ∧
            Date.lt i.due_date today)).map (·.installment_value)).sum) ∧
    compute_card_summary [] today = (0, 0, 0) := by
  have hnil : compute_card_summary [] today = (0, 0, 0) := rfl
  refine ⟨?_, hnil⟩
  cases expanded with
  | nil => simp [hnil]
  | cons a l =>
    have h1 := List.filter_congr (l := a :: l)
      (fun x _ => mask_mes_eq today x)
    have h2 := List.filter_congr (l := a :: l)
      (fun x _ => mask_a_pagar_eq today x)
    have h3 := List.filter_congr (l := a :: l)
      (fun x _ => mask_pago_eq today x)
    simp only [compute_card_summary, List.isEmpty_cons, Bool.false_eq_true,
      if_false, h1, h2, h3]

/-- Splitting a filtered sum along a second boolean condition. -/
theorem sum_filter_split {α : Type} (l : List α) (f : α → ℚ)
    (p q : α → Bool) :
    ((l.filter fun a => p a && q a).map f).sum +
      ((l.filter fun a => p a && !(q a)).map f).sum =
    ((l.filter p).map f).sum := by
  induction l with
  | nil => simp
  | cons a t ih =>
    by_cases hp : p a
    · by_cases hq : q a <;> simp [List.filter_cons, hp, hq] <;> linarith [ih]
    · simp [List.filter_cons, hp]
      exact ih

/-- A filtered sum grows when the filter is relaxed (values
non-negative). -/
theorem sum_filter_mono {α : Type} (l : List α) (f : α → ℚ)
    (p q : α → Bool) (himp : ∀ a ∈ l, p a = true → q a = true)
    (hpos : ∀ a ∈ l, 0 ≤ f a) :
    ((l.filter p).map f).sum ≤ ((l.filter q).map f).sum := by
  induction l with
  | nil => simp
  | cons a t ih =>
    have ih2 := ih (fun x hx => himp x (List.mem_cons_of_mem _ hx))
      (fun x hx => hpos x (List.mem_cons_of_mem _ hx))
    have hfa := hpos a (List.mem_cons_self a t)
    by_cases hp : p a
    · have hq := himp a (List.mem_cons_self a t) hp
      simp [List.filter_cons, hp, hq]
      linarith
    · by_cases hq : q a <;> simp [List.filter_cons, hp, hq]
      · linarith
      · exact ih2

/-- C10: restricted to today's year, the paid window (`due_date <
today`) and the unpaid window (`due_date ≥ today`) partition the year's
installments, so `paid_this_year + due_this_year_unpaid` is exactly the
sum of `installment_value` over all installments of today's year. -/
theorem c10_year_windows_partition (expanded : List Installment)
    (today : Date) :
    (compute_card_summary expanded today).2.2 +
      (compute_card_summary expanded today).2.1 =
    ((expanded.filter fun i =>
        decide (i.due_date.year = today.year)).map
      (·.installment_value)).sum := by
  cases expanded with
  | nil => simp [compute_card_summary]
  | cons a l =>
    have h1 : (a :: l).filter
        (fun i : Installment => (i.due_date.year == today.year) &&
          decide (¬ Date.lt i.due_date today)) =
      (a :: l).filter
        (fun i : Installment => (i.due_date.year == today.year) &&
          !(decide (Date.lt i.due_date today))) :=
      List.filter_congr (fun x _ => by simp [decide_not])
    have h2 : (a :: l).filter
        (fun i : Installment => decide (i.due_date.year = today.year)) =
      (a :: l).filter
        (fun i : Installment => i.due_date.year == today.year) :=
      List.filter_congr (fun x _ => (mask_ano_eq today x).symm)
    simp only [compute_card_summary, List.isEmpty_cons, Bool.false_eq_true,
      if_false, h1, h2]
    exact sum_filter_split (a :: l) (·.installment_value)
      (fun i => i.due_date.year == today.year)
      (fun i => decide (Date.lt i.due_date today))

/-- Installment used against C7: due earlier in today's month, so it is
counted in `due_this_month` but, being already past, not in
`due_this_year_unpaid`. -/
def instPastThisMonth : Installment :=
  { transaction_id := 9, category := "casa", purchase_date := ⟨2024, 5, 20⟩,
    card_name := "Visa", description := "conta", installment_no := 1,
    total_installments := 1, installment_value := 100,
    due_date := ⟨2024, 6, 10⟩ }

/-- A fixed "today" in the middle of the same month. -/
def todayMidMonth : Date := ⟨2024, 6, 15⟩

/-- C7 counterexample: with a single non-negative installment of 100 due
on 2024-06-10 and today = 2024-06-15, `due_this_month = 100` exceeds
`due_this_year_unpaid = 0`, refuting the claimed subset relation and the
inequality `due_this_month ≤ due_this_year_unpaid`. -/
theorem c7_counterexample :
    (∀ i ∈ [instPastThisMonth], 0 ≤ i.installment_value) ∧
      ¬ ((compute_card_summary [instPastThisMonth] todayMidMonth).1 ≤
          (compute_card_summary [instPastThisMonth] todayMidMonth).2.1) := by
  constructor
  · decide
  · norm_num [compute_card_summary, instPastThisMonth, todayMidMonth,
      Date.lt, List.filter]

/-- C7 amended: the current-month window is a subset of the current-year
window (not of its unpaid part), so with non-negative installment values
`due_this_month ≤ paid_this_year + due_this_year_unpaid`; only the
installments of the month that are not yet past (`due_date ≥ today`)
land in `due_this_year_unpaid`. -/
theorem c7_amended_month_le_year (expanded : List Installment)
    (today : Date)
    (hpos : ∀ i ∈ expanded, 0 ≤ i.installment_value) :
    (compute_card_summary expanded today).1 ≤
      (compute_card_summary expanded today).2.2 +
        (compute_card_summary expanded today).2.1 := by
  rw [c10_year_windows_partition]
  cases expanded with
  | nil => simp [compute_card_summary]
  | cons a l =>
    simp only [compute_card_summary, List.isEmpty_cons, Bool.false_eq_true,
      if_false]
    apply sum_filter_mono
    · intro x hx h
      simp only [Bool.and_eq_true, beq_iff_eq] at h
      simp [h.1]
    · exact hpos

/-- C7 witness for the amended theorem, at the counterexample input. -/
theorem c7_amended_month_le_year_witness :
    (∀ i ∈ [instPastThisMonth], 0 ≤ i.installment_value) ∧
      (compute_card_summary [instPastThisMonth] todayMidMonth).1 ≤
        (compute_card_summary [instPastThisMonth] todayMidMonth).2.2 +
          (compute_card_summary [instPastThisMonth] todayMidMonth).2.1 :=
  ⟨by decide,
    c7_amended_month_le_year [instPastThisMonth] todayMidMonth (by decide)⟩

/-! ### Projections of `overviewOfGroup` -/

theorem overviewOfGroup_tid (today : Date) (tid : Nat)
    (g : List Installment) :
    (overviewOfGroup today tid g).transaction_id = tid := rfl

theorem overviewOfGroup_paid_def (today : Date) (tid : Nat)
    (g : List Installment) :
    (overviewOfGroup today tid g).installments_paid =
      (((g.insertionSort fun a b =>
          a.installment_no ≤ b.installment_no).map (·.due_date)).filter
        fun d => decide (Date.lt d today)).length := rfl

theorem overviewOfGroup_total_def (today : Date) (tid : Nat)
    (g : List Installment) :
    (overviewOfGroup today tid g).total_installments =
      ((g.insertionSort fun a b =>
        a.installment_no ≤ b.installment_no).headI).total_installments :=
  rfl

theorem overviewOfGroup_remaining_def (today : Date) (tid : Nat)
    (g : List Installment) :
    (overviewOfGroup today tid g).installments_remaining =
      ((overviewOfGroup today tid g).total_installments : Int) -
        ((overviewOfGroup today tid g).installments_paid : Int) := rfl

theorem overviewOfGroup_status_def (today : Date) (tid : Nat)
    (g : List Installment) :
    (overviewOfGroup today tid g).status =
      (if (overviewOfGroup today tid g).installments_remaining ≤ 0 ∧
          Date.lt ((listMaxD ((g.insertionSort fun a b =>
              a.installment_no ≤ b.installment_no).map
            (·.due_date))).getD today) today
        then "concluida" else "ativa") := rfl

theorem overviewOfGroup_next_due_def (today : Date) (tid : Nat)
    (g : List Installment) :
    (overviewOfGroup today tid g).next_due =
      (if 0 < (overviewOfGroup today tid g).installments_remaining then
        listMinD (((g.insertionSort fun a b =>
            a.installment_no ≤ b.installment_no).map (·.due_date)).filter
          fun d => decide (¬ Date.lt d today))
      else none) := rfl

/-- The paid count only depends on the multiset of due dates: it equals
the count over the unsorted group. -/
theorem overviewOfGroup_paid (today : Date) (tid : Nat)
    (g : List Installment) :
    (overviewOfGroup today tid g).installments_paid =
      (g.filter fun j => decide (Date.lt j.due_date today)).length := by
  rw [overviewOfGroup_paid_def]
  rw [← List.countP_eq_length_filter, List.countP_map,
    (List.perm_insertionSort _ g).countP_eq, List.countP_eq_length_filter]
  rfl

theorem headI_mem {α : Type} [Inhabited α] {l : List α} (h : l ≠ []) :
    l.headI ∈ l := by
  cases l with
  | nil => exact absurd rfl h
  | cons a t => simp

theorem filter_map_comm {α β : Type} (l : List α) (f : α → β)
    (p : β → Bool) :
    (l.map f).filter p = (l.filter fun a => p (f a)).map f := by
  induction l with
  | nil => rfl
  | cons a t ih => by_cases h : p (f a) <;> simp [h, ih]

/-! ### The consolidated keys -/

theorem uniqueKeys_nodup (expanded : List Installment) :
    (uniqueKeys expanded).Nodup :=
  ((List.perm_insertionSort _ _).nodup_iff).mpr
    (List.nodup_dedup _)

theorem mem_uniqueKeys {expanded : List Installment} {tid : Nat} :
    tid ∈ uniqueKeys expanded ↔
      tid ∈ expanded.map (·.transaction_id) := by
  unfold uniqueKeys
  rw [(List.perm_insertionSort _ _).mem_iff, List.mem_dedup]

theorem build_eq_map (expanded : List Installment) (today : Date)
    (h : expanded ≠ []) :
    build_purchase_overview expanded today =
      (uniqueKeys expanded).map fun tid =>
        overviewOfGroup today tid
          (expanded.filter fun i => i.transaction_id == tid) := by
  unfold build_purchase_overview
  rw [if_neg]
  simpa using h

theorem build_map_tid (expanded : List Installment) (today : Date)
    (h : expanded ≠ []) :
    (build_purchase_overview expanded today).map (·.transaction_id) =
      uniqueKeys expanded := by
  rw [build_eq_map expanded today h, List.map_map]
  exact List.map_id' _

/-- C4: for any installment sequence and any injected today, the
consolidator emits pairwise-distinct `transaction_id` rows, every input
installment matches exactly one output row, `installments_paid` counts
exactly the purchase's installments with `due_date < today`, and
`installments_paid + installments_remaining = installment_count` on
every row. -/
theorem c4_consolidation_invariants (expanded : List Installment)
    (today : Date) :
    ((build_purchase_overview expanded today).map
        (·.transaction_id)).Nodup ∧
    (∀ i ∈ expanded,
      ((build_purchase_overview expanded today).filter
          fun o => o.transaction_id == i.transaction_id).length = 1) ∧
    (∀ o ∈ build_purchase_overview expanded today,
      o.installments_paid =
        (expanded.filter fun j =>
          j.transaction_id == o.transaction_id &&
            decide (Date.lt j.due_date today)).length) ∧
    (∀ o ∈ build_purchase_overview expanded today,
      (o.installments_paid : Int) + o.installments_remaining =
        (o.total_installments : Int)) := by
  refine ⟨?_, ?_, ?_, ?_⟩
  · by_cases h : expanded = []
    · subst h
      simp [build_purchase_overview]
    · rw [build_map_tid expanded today h]
      exact uniqueKeys_nodup expanded
  · intro i hi
    have h : expanded ≠ [] := by
      intro he
      subst he
      cases hi
    rw [build_eq_map expanded today h, filter_map_comm, List.length_map]
    have hconv : ((uniqueKeys expanded).filter fun tid =>
        (overviewOfGroup today tid
          (expanded.filter fun j => j.transaction_id == tid)).transaction_id
          == i.transaction_id) =
        (uniqueKeys expanded).filter fun tid =>
          tid == i.transaction_id := rfl
    rw [hconv, ← List.countP_eq_length_filter]
    have hcount : List.countP (fun tid => tid == i.transaction_id)
        (uniqueKeys expanded) =
        List.count i.transaction_id (uniqueKeys expanded) := rfl
    rw [hcount]
    exact List.count_eq_one_of_mem (uniqueKeys_nodup expanded)
      (mem_uniqueKeys.mpr (List.mem_map_of_mem _ hi))
  · intro o ho
    have h : expanded ≠ [] := by
      intro he
      subst he
      simp [build_purchase_overview] at ho
    rw [build_eq_map expanded today h] at ho
    obtain ⟨tid, htid, rfl⟩ := List.mem_map.mp ho
    rw [overviewOfGroup_paid, overviewOfGroup_tid, List.filter_filter]
    apply congrArg
    apply List.filter_congr
    intro x _
    exact Bool.and_comm _ _
  · intro o ho
    have h : expanded ≠ [] := by
      intro he
      subst he
      simp [build_purchase_overview] at ho
    rw [build_eq_map expanded today h] at ho
    obtain ⟨tid, htid, rfl⟩ := List.mem_map.mp ho
    rw [overviewOfGroup_remaining_def]
    omega

/-- Two concrete installments of one purchase, for the C4 witness. -/
def instA : Installment :=
  { transaction_id := 1, category := "a", purchase_date := ⟨2024, 1, 2⟩,
    card_name := "c", description := "d", installment_no := 1,
    total_installments := 2, installment_value := 50,
    due_date := ⟨2024, 1, 5⟩ }

/-- Second installment of the same purchase, for the C4 witness. -/
def instB : Installment :=
  { transaction_id := 1, category := "a", purchase_date := ⟨2024, 1, 2⟩,
    card_name := "c", description := "d", installment_no := 2,
    total_installments := 2, installment_value := 50,
    due_date := ⟨2024, 2, 5⟩ }

/-- C4 witness: instantiated at a concrete two-installment sequence,
discharging the membership hypothesis at `instA`. -/
theorem c4_consolidation_invariants_witness :
    ((build_purchase_overview [instA, instB] todayMidMonth).map
        (·.transaction_id)).Nodup ∧
    ((build_purchase_overview [instA, instB] todayMidMonth).filter
        fun o => o.transaction_id == instA.transaction_id).length = 1 :=
  ⟨(c4_consolidation_invariants [instA, instB] todayMidMonth).1,
   (c4_consolidation_invariants [instA, instB] todayMidMonth).2.1 instA
     (by decide)⟩

/-! ### Counting the consolidated rows of an expansion -/

theorem nparc_pos (t : Transaction) : 1 ≤ (max t.installments 1).toNat := by
  have h1 : (1 : Int) ≤ max t.installments 1 := le_max_right _ _
  omega

theorem map_tid_expandOne (due_day : Nat) (t : Transaction) :
    (expandOne due_day t).map (·.transaction_id) =
      List.replicate (max t.installments 1).toNat t.id := by
  unfold expandOne
  rw [List.map_map]
  show (List.range _).map (fun _ => t.id) = _
  rw [List.map_const', List.length_range]

theorem dedup_replicate_append {a : Nat} {l : List Nat} (n : Nat)
    (hn : 1 ≤ n) (ha : a ∉ l) :
    (List.replicate n a ++ l).dedup = a :: l.dedup := by
  induction n with
  | zero => omega
  | succ m ih =>
    by_cases hm : m = 0
    · subst hm
      simpa using List.dedup_cons_of_not_mem ha
    · rw [List.replicate_succ, List.cons_append, List.dedup_cons_of_mem,
        ih (by omega)]
      exact List.mem_append_left _
        (List.mem_replicate.mpr ⟨hm, rfl⟩)

theorem mem_expand_tid (due_day : Nat) (ts : List Transaction)
    (i : Installment) (h : i ∈ expand_installments ts due_day) :
    i.transaction_id ∈ ts.map (·.id) := by
  unfold expand_installments at h
  obtain ⟨t, ht, hi⟩ := List.mem_flatMap.mp h
  obtain ⟨k, _, rfl⟩ := mem_expandOne due_day t i hi
  exact List.mem_map_of_mem _ ht

theorem dedup_expand_length (due_day : Nat) (ts : List Transaction)
    (h : (ts.map (·.id)).Nodup) :
    ((expand_installments ts due_day).map
        (·.transaction_id)).dedup.length = ts.length := by
  induction ts with
  | nil => simp [expand_installments]
  | cons t rest ih =>
    rw [show expand_installments (t :: rest) due_day =
        expandOne due_day t ++ expand_installments rest due_day from rfl]
    rw [List.map_append, map_tid_expandOne]
    rw [List.map_cons] at h
    have hnd := List.nodup_cons.mp h
    have hid : t.id ∉
        (expand_installments rest due_day).map (·.transaction_id) := by
      intro hmem
      obtain ⟨i, hi, heq⟩ := List.mem_map.mp hmem
      have hin := mem_expand_tid due_day rest i hi
      rw [heq] at hin
      exact hnd.1 hin
    rw [dedup_replicate_append _ (nparc_pos t) hid]
    simp [ih hnd.2]

/-- C8: with pairwise-distinct transaction ids, consolidating the
expansion yields exactly one purchase-overview row per input
transaction (and the empty input yields an empty result). -/
theorem c8_one_row_per_transaction (ts : List Transaction)
    (due_day : Nat) (today : Date) (hids : (ts.map (·.id)).Nodup)
    (hd1 : 1 ≤ due_day) (hd28 : due_day ≤ 28) :
    (build_purchase_overview (expand_installments ts due_day)
        today).length = ts.length := by
  cases ts with
  | nil => simp [expand_installments, build_purchase_overview]
  | cons t rest =>
    have hne : expand_installments (t :: rest) due_day ≠ [] := by
      rw [show expand_installments (t :: rest) due_day =
          expandOne due_day t ++ expand_installments rest due_day from rfl]
      intro hcontra
      rcases List.append_eq_nil.mp hcontra with ⟨h1, _⟩
      exact expandOne_ne_nil due_day t h1
    rw [build_eq_map _ today hne, List.length_map]
    unfold uniqueKeys
    rw [(List.perm_insertionSort _ _).length_eq]
    exact dedup_expand_length due_day (t :: rest) hids

/-- Second sample transaction with a distinct id, for the C8 witness. -/
def sampleT2 : Transaction :=
  { id := 7, category := "lazer", date := ⟨2024, 8, 20⟩, amount := 120,
    installments := 2, card_name := "Visa", description := "cinema" }

/-- C8 witness: two transactions with distinct ids yield two rows. -/
theorem c8_one_row_per_transaction_witness :
    (([sampleT1, sampleT2].map (·.id)).Nodup ∧ 1 ≤ 5 ∧ 5 ≤ 28) ∧
      (build_purchase_overview
        (expand_installments [sampleT1, sampleT2] 5) todayMidMonth).length =
        [sampleT1, sampleT2].length :=
  ⟨⟨by decide, by decide, by decide⟩,
    c8_one_row_per_transaction [sampleT1, sampleT2] 5 todayMidMonth
      (by decide) (by decide) (by decide)⟩

/-! ### Identifying the group of a transaction inside an expansion -/

theorem filter_expand_eq (ts : List Transaction) (due_day : Nat)
    (t : Transaction) (hmem : t ∈ ts)
    (hids : (ts.map (·.id)).Nodup) :
    (expand_installments ts due_day).filter
        (fun i => i.transaction_id == t.id) = expandOne due_day t := by
  induction ts with
  | nil => cases hmem
  | cons s rest ih =>
    rw [show expand_installments (s :: rest) due_day =
        expandOne due_day s ++ expand_installments rest due_day from rfl,
      List.filter_append]
    rw [List.map_cons] at hids
    have hnd := List.nodup_cons.mp hids
    rcases List.mem_cons.mp hmem with rfl | hmem2
    · have h1 : (expandOne due_day t).filter
          (fun i => i.transaction_id == t.id) = expandOne due_day t := by
        apply List.filter_eq_self.mpr
        intro i hi
        obtain ⟨k, _, rfl⟩ := mem_expandOne due_day t i hi
        simp
      have h2 : (expand_installments rest due_day).filter
          (fun i => i.transaction_id == t.id) = [] := by
        apply List.filter_eq_nil_iff.mpr
        intro i hi hbeq
        have hin := mem_expand_tid due_day rest i hi
        rw [beq_iff_eq] at hbeq
        rw [hbeq] at hin
        exact hnd.1 hin
      rw [h1, h2, List.append_nil]
    · have hne : s.id ≠ t.id := by
        intro he
        apply hnd.1
        rw [he]
        exact List.mem_map_of_mem _ hmem2
      have hs : (expandOne due_day s).filter
          (fun i => i.transaction_id == t.id) = [] := by
        apply List.filter_eq_nil_iff.mpr
        intro i hi hbeq
        obtain ⟨k, _, rfl⟩ := mem_expandOne due_day s i hi
        rw [beq_iff_eq] at hbeq
        exact hne hbeq
      rw [hs, List.nil_append]
      exact ih hmem2 hnd.2

theorem mem_build_expand (ts : List Transaction) (due_day : Nat)
    (today : Date) (hids : (ts.map (·.id)).Nodup) (o : Overview)
    (ho : o ∈ build_purchase_overview (expand_installments ts due_day)
      today) :
    ∃ t ∈ ts, o.transaction_id = t.id ∧
      o = overviewOfGroup today t.id (expandOne due_day t) := by
  have hne : expand_installments ts due_day ≠ [] := by
    intro he
    rw [he] at ho
    simp [build_purchase_overview] at ho
  rw [build_eq_map _ today hne] at ho
  obtain ⟨tid, htid, rfl⟩ := List.mem_map.mp ho
  have htid2 : tid ∈ (expand_installments ts due_day).map
      (·.transaction_id) := mem_uniqueKeys.mp htid
  obtain ⟨i, hi, htid_eq⟩ := List.mem_map.mp htid2
  obtain ⟨t, ht, hit⟩ := List.mem_flatMap.mp hi
  obtain ⟨k, _, rfl⟩ := mem_expandOne due_day t i hit
  have htt : tid = t.id := htid_eq.symm
  subst htt
  refine ⟨t, ht, overviewOfGroup_tid _ _ _, ?_⟩
  rw [filter_expand_eq ts due_day t ht hids]

/-! ### Group-level facts (for a group whose rows record its length) -/

theorem overviewOfGroup_total (today : Date) (tid : Nat)
    (g : List Installment) (hg : g ≠ [])
    (hc : ∀ i ∈ g, i.total_installments = g.length) :
    (overviewOfGroup today tid g).total_installments = g.length := by
  rw [overviewOfGroup_total_def]
  have hperm := List.perm_insertionSort
    (fun a b : Installment => a.installment_no ≤ b.installment_no) g
  have hs : g.insertionSort
      (fun a b => a.installment_no ≤ b.installment_no) ≠ [] := by
    intro h0
    apply hg
    have := hperm.symm
    rw [h0] at this
    exact this.eq_nil
  exact hc _ (hperm.mem_iff.mp (headI_mem hs))

theorem overviewOfGroup_remaining_futures (today : Date) (tid : Nat)
    (g : List Installment) (hg : g ≠ [])
    (hc : ∀ i ∈ g, i.total_installments = g.length) :
    (overviewOfGroup today tid g).installments_remaining =
      ((g.filter fun j =>
        decide (¬ Date.lt j.due_date today)).length : Int) := by
  rw [overviewOfGroup_remaining_def, overviewOfGroup_total today tid g hg hc,
    overviewOfGroup_paid]
  have hsplit := length_filter_add_length_filter_not g
    (fun j => decide (Date.lt j.due_date today))
  have hcong : g.filter (fun j => decide (¬ Date.lt j.due_date today)) =
      g.filter (fun j => !(decide (Date.lt j.due_date today))) :=
    List.filter_congr (fun x _ => by simp [decide_not])
  rw [hcong]
  omega

theorem overviewOfGroup_remaining_nonneg (today : Date) (tid : Nat)
    (g : List Installment) (hg : g ≠ [])
    (hc : ∀ i ∈ g, i.total_installments = g.length) :
    0 ≤ (overviewOfGroup today tid g).installments_remaining := by
  rw [overviewOfGroup_remaining_futures today tid g hg hc]
  exact Int.natCast_nonneg _

/-- Status characterisation: `"concluida"` exactly when no installment
remains and the latest due date lies strictly before today. -/
theorem overviewOfGroup_status_iff (today : Date) (tid : Nat)
    (g : List Installment) (hg : g ≠ [])
    (hc : ∀ i ∈ g, i.total_installments = g.length) :
    ((overviewOfGroup today tid g).status = "concluida" ↔
      (overviewOfGroup today tid g).installments_remaining = 0 ∧
        ∃ m, listMaxD (g.map (·.due_date)) = some m ∧ Date.lt m today) := by
  have hrem0 := overviewOfGroup_remaining_nonneg today tid g hg hc
  have hpermd : ((g.insertionSort fun a b =>
      a.installment_no ≤ b.installment_no).map (·.due_date)).Perm
      (g.map (·.due_date)) :=
    (List.perm_insertionSort _ g).map _
  have hmax := listMaxD_perm hpermd
  have hne : g.map (·.due_date) ≠ [] := by
    intro h0
    exact hg (List.map_eq_nil_iff.mp h0)
  obtain ⟨m, hm, hmem, hall⟩ := listMaxD_spec _ hne
  have hgetd : (listMaxD ((g.insertionSort fun a b =>
      a.installment_no ≤ b.installment_no).map (·.due_date))).getD today
      = m := by
    rw [hmax, hm]
    rfl
  rw [overviewOfGroup_status_def, hgetd]
  constructor
  · intro h
    by_cases hcond : (overviewOfGroup today tid g).installments_remaining
        ≤ 0 ∧ Date.lt m today
    · exact ⟨by omega, m, hm, hcond.2⟩
    · rw [if_neg hcond] at h
      exact absurd h (by decide)
  · rintro ⟨h0, m2, hm2, hlt⟩
    have hm2m : m2 = m := by
      rw [hm] at hm2
      exact (Option.some_injective _ hm2).symm
    rw [if_pos ⟨by omega, hm2m ▸ hlt⟩]

/-- Next-due characterisation: `none` exactly when nothing remains;
otherwise it is the minimum of the not-yet-due dates. -/
theorem overviewOfGroup_next_due_spec (today : Date) (tid : Nat)
    (g : List Installment) (hg : g ≠ [])
    (hc : ∀ i ∈ g, i.total_installments = g.length) :
    ((overviewOfGroup today tid g).next_due = none ↔
      (overviewOfGroup today tid g).installments_remaining = 0) ∧
    (∀ d, (overviewOfGroup today tid g).next_due = some d →
      d ∈ (g.map (·.due_date)).filter
          (fun x => decide (¬ Date.lt x today)) ∧
        ∀ e ∈ (g.map (·.due_date)).filter
            (fun x => decide (¬ Date.lt x today)), ¬ Date.lt e d) := by
  have hrem := overviewOfGroup_remaining_futures today tid g hg hc
  have hnn := overviewOfGroup_remaining_nonneg today tid g hg hc
  have hpermf : (((g.insertionSort fun a b =>
      a.installment_no ≤ b.installment_no).map (·.due_date)).filter
        (fun x => decide (¬ Date.lt x today))).Perm
      ((g.map (·.due_date)).filter (fun x => decide (¬ Date.lt x today))) :=
    ((List.perm_insertionSort _ g).map (·.due_date)).filter _
  have hlen : ((g.map (·.due_date)).filter
      (fun x => decide (¬ Date.lt x today))).length =
      (g.filter fun j => decide (¬ Date.lt j.due_date today)).length := by
    rw [filter_map_comm, List.length_map]
  have hfs_ne : 0 < (overviewOfGroup today tid g).installments_remaining →
      ((g.insertionSort fun a b =>
        a.installment_no ≤ b.installment_no).map (·.due_date)).filter
          (fun x => decide (¬ Date.lt x today)) ≠ [] := by
    intro hpos h0
    have hl0 : ((g.map (·.due_date)).filter
        (fun x => decide (¬ Date.lt x today))).length = 0 := by
      rw [← hpermf.length_eq, h0]
      rfl
    rw [hlen] at hl0
    omega
  constructor
  · rw [overviewOfGroup_next_due_def]
    constructor
    · intro h
      by_cases hpos : 0 <
          (overviewOfGroup today tid g).installments_remaining
      · rw [if_pos hpos] at h
        obtain ⟨r, hr, _, _⟩ := listMinD_spec _ (hfs_ne hpos)
        rw [hr] at h
        cases h
      · omega
    · intro h0
      rw [if_neg (by omega)]
  · intro d hd
    rw [overviewOfGroup_next_due_def] at hd
    by_cases hpos : 0 < (overviewOfGroup today tid g).installments_remaining
    · rw [if_pos hpos] at hd
      obtain ⟨r, hr, hrmem, hrall⟩ := listMinD_spec _ (hfs_ne hpos)
      rw [hr] at hd
      have hdr : r = d := Option.some_injective _ hd
      subst hdr
      refine ⟨hpermf.mem_iff.mp hrmem, ?_⟩
      intro e he
      exact hrall e (hpermf.mem_iff.mpr he)
    · rw [if_neg hpos] at hd
      cases hd

theorem expand_group_counts (due_day : Nat) (t : Transaction) :
    ∀ i ∈ expandOne due_day t,
      i.total_installments = (expandOne due_day t).length := by
  intro i hi
  obtain ⟨k, hk, rfl⟩ := mem_expandOne due_day t i hi
  rw [expandOne_length]

/-- C3: for overviews built from an expansion with pairwise-distinct
ids, status is `"concluida"` iff `installments_remaining = 0` and the
maximum due date across the purchase's installments is strictly before
the injected today, and `"ativa"` otherwise; in particular a
single-installment purchase whose due date was yesterday is settled
while the same purchase with due date today is still active. -/
theorem c3_settled_iff (ts : List Transaction) (due_day : Nat)
    (today : Date) (hids : (ts.map (·.id)).Nodup) :
    (∀ o ∈ build_purchase_overview (expand_installments ts due_day) today,
      (o.status = "concluida" ↔
        o.installments_remaining = 0 ∧
          ∃ m, listMaxD (((expand_installments ts due_day).filter
              fun i => i.transaction_id == o.transaction_id).map
            (·.due_date)) = some m ∧ Date.lt m today) ∧
      (o.status ≠ "concluida" → o.status = "ativa")) ∧
    (build_purchase_overview (expand_installments [sampleT1] 5)
        ⟨2024, 5, 6⟩).map (·.status) = ["concluida"] ∧
    (build_purchase_overview (expand_installments [sampleT1] 5)
        ⟨2024, 5, 5⟩).map (·.status) = ["ativa"] := by
  refine ⟨?_, by decide, by decide⟩
  intro o ho
  obtain ⟨t, ht, htid, rfl⟩ := mem_build_expand ts due_day today hids o ho
  constructor
  · rw [overviewOfGroup_tid,
      filter_expand_eq ts due_day t ht hids]
    exact overviewOfGroup_status_iff today t.id (expandOne due_day t)
      (expandOne_ne_nil due_day t) (expand_group_counts due_day t)
  · intro hne
    rw [overviewOfGroup_status_def]
    rw [overviewOfGroup_status_def] at hne
    by_cases hcond : (overviewOfGroup today t.id
        (expandOne due_day t)).installments_remaining ≤ 0 ∧
        Date.lt ((listMaxD (((expandOne due_day t).insertionSort fun a b =>
          a.installment_no ≤ b.installment_no).map
            (·.due_date))).getD today) today
    · rw [if_pos hcond] at hne
      exact absurd rfl hne
    · rw [if_neg hcond]

/-- C3 witness: instantiated at the singleton list of `sampleT1` with
`due_day = 5` and today one day past the single due date. -/
theorem c3_settled_iff_witness :
    ([sampleT1].map (·.id)).Nodup ∧
      ((∀ o ∈ build_purchase_overview
          (expand_installments [sampleT1] 5) ⟨2024, 5, 6⟩,
        (o.status = "concluida" ↔
          o.installments_remaining = 0 ∧
            ∃ m, listMaxD (((expand_installments [sampleT1] 5).filter
                fun i => i.transaction_id == o.transaction_id).map
              (·.due_date)) = some m ∧ Date.lt m ⟨2024, 5, 6⟩) ∧
        (o.status ≠ "concluida" → o.status = "ativa")) ∧
      (build_purchase_overview (expand_installments [sampleT1] 5)
          ⟨2024, 5, 6⟩).map (·.status) = ["concluida"] ∧
      (build_purchase_overview (expand_installments [sampleT1] 5)
          ⟨2024, 5, 5⟩).map (·.status) = ["ativa"]) :=
  ⟨by decide, c3_settled_iff [sampleT1] 5 ⟨2024, 5, 6⟩ (by decide)⟩

/-- C5: for overviews built from an expansion with pairwise-distinct
ids, `next_due` is `none` iff the purchase is fully paid
(`installments_remaining = 0`), and when it is `some d`, `d` is the
smallest due date among the purchase's installments with
`due_date ≥ today`. -/
theorem c5_next_due_minimal (ts : List Transaction) (due_day : Nat)
    (today : Date) (hids : (ts.map (·.id)).Nodup) :
    ∀ o ∈ build_purchase_overview (expand_installments ts due_day) today,
      (o.next_due = none ↔ o.installments_remaining = 0) ∧
      (∀ d, o.next_due = some d →
        d ∈ (((expand_installments ts due_day).filter
            fun i => i.transaction_id == o.transaction_id).map
          (·.due_date)).filter (fun x => decide (¬ Date.lt x today)) ∧
        ∀ e ∈ (((expand_installments ts due_day).filter
            fun i => i.transaction_id == o.transaction_id).map
          (·.due_date)).filter (fun x => decide (¬ Date.lt x today)),
          ¬ Date.lt e d) := by
  intro o ho
  obtain ⟨t, ht, htid, rfl⟩ := mem_build_expand ts due_day today hids o ho
  rw [overviewOfGroup_tid, filter_expand_eq ts due_day t ht hids]
  exact overviewOfGroup_next_due_spec today t.id (expandOne due_day t)
    (expandOne_ne_nil due_day t) (expand_group_counts due_day t)

/-- C5 witness: instantiated at `sampleT3` (three installments) with a
today between the first and second due dates. -/
theorem c5_next_due_minimal_witness :
    ([sampleT3].map (·.id)).Nodup ∧
      (∀ o ∈ build_purchase_overview
          (expand_installments [sampleT3] 5) todayMidMonth,
        (o.next_due = none ↔ o.installments_remaining = 0) ∧
        (∀ d, o.next_due = some d →
          d ∈ (((expand_installments [sampleT3] 5).filter
              fun i => i.transaction_id == o.transaction_id).map
            (·.due_date)).filter
              (fun x => decide (¬ Date.lt x todayMidMonth)) ∧
          ∀ e ∈ (((expand_installments [sampleT3] 5).filter
              fun i => i.transaction_id == o.transaction_id).map
            (·.due_date)).filter
              (fun x => decide (¬ Date.lt x todayMidMonth)),
            ¬ Date.lt e d)) :=
  ⟨by decide, c5_next_due_minimal [sampleT3] 5 todayMidMonth (by decide)⟩
